import Mathlib

/- Shallow embedding of the DataFloor single page application
   (src/app/page.js, together with the earlier revision src/unnamed/part_000).
   JavaScript numbers are modelled as rationals and JS strings as Lean strings.
   Primitives the code merely calls (Number coercion of strings, Date.parse,
   number to string conversion, JSON.stringify) are abstracted as parameters
   collected in a JSEnv record, and every theorem is proved for every such
   environment. -/

namespace DataFloor

open scoped List

/-- A JavaScript runtime value as it can appear in a loaded cell:
undefined, null, a boolean, a finite number, or a string. -/
inductive JSVal where
  | undefV : JSVal
  | nullV : JSVal
  | boolV : Bool → JSVal
  | num : ℚ → JSVal
  | str : String → JSVal
deriving DecidableEq, Repr

/-- A parsed JSON document (the result of JSON.parse), also used for the
row objects delivered by the external Parquet reader. -/
inductive JSON where
  | null : JSON
  | bool : Bool → JSON
  | num : ℚ → JSON
  | str : String → JSON
  | arr : List JSON → JSON
  | obj : List (String × JSON) → JSON

/-- A data row: a JS object modelled as an association list from column
names to cell values, in key insertion order. -/
abbrev Row := List (String × JSVal)

/-- The JavaScript primitives the code calls but does not implement:
string to number coercion (Number on a nonempty string; none models NaN),
Date.parse on a string (none models NaN), number to string conversion,
JSON.stringify of a nested value and of the whole data array, and the
engine supplied message of the TypeError raised by reading the named
property of null. -/
structure JSEnv where
  numParse : String → Option ℚ
  dateParse : String → Option ℚ
  numToString : ℚ → String
  stringify : JSON → String
  stringifyRows : List Row → String
  nullReadError : String → String

/-- Property access row[col]: the stored value, or undefined when the key
is missing. -/
def getCell (row : Row) (col : String) : JSVal :=
  (row.lookup col).getD .undefV

/-- The JS String(val) coercion. -/
def jsToString (env : JSEnv) : JSVal → String
  | .undefV => "undefined"
  | .nullV => "null"
  | .boolV b => if b then "true" else "false"
  | .num q => env.numToString q
  | .str s => s

/-- The JS Number(val) coercion; none models NaN.  Number(null) is 0,
Number(undefined) is NaN, Number of the empty string is 0, and booleans
coerce to 0 and 1. -/
def jsToNumber (env : JSEnv) : JSVal → Option ℚ
  | .undefV => none
  | .nullV => some 0
  | .boolV b => some (if b then 1 else 0)
  | .num q => some q
  | .str s => if s = "" then some 0 else env.numParse s

/-- Date.parse applied to a cell value; only a string can yield a valid
timestamp here (none models NaN). -/
def cellDateParse (env : JSEnv) : JSVal → Option ℚ
  | .str s => env.dateParse s
  | _ => none

/-- Decides whether the list starts with the given candidate segment. -/
def listStartsWith {α : Type} [DecidableEq α] : List α → List α → Bool
  | [], _ => true
  | _ :: _, [] => false
  | a :: as, b :: bs => decide (a = b) && listStartsWith as bs

/-- Decides whether the needle occurs as a contiguous segment of the
haystack, like the JS String.prototype.includes test. -/
def listContainsSub {α : Type} [DecidableEq α] (needle : List α) : List α → Bool
  | [] => needle.isEmpty
  | b :: bs => listStartsWith needle (b :: bs) || listContainsSub needle bs

/-- The JS test s.includes(sub). -/
def strContainsB (s sub : String) : Bool :=
  listContainsSub sub.toList s.toList

/-- The filteredData memo of src/app/page.js (lines 627 to 633): keep the
rows for which some cell value, coerced to a lowercased string, contains
the lowercased search term.  The JS toLowerCase is modelled by
String.toLower. -/
def filteredData (env : JSEnv) (data : List Row) (searchTerm : String) : List Row :=
  data.filter (fun row =>
    (row.map Prod.snd).any (fun val =>
      strContainsB ((jsToString env val).toLower) searchTerm.toLower))

/-- The filteredData computation of the earlier revision
src/unnamed/part_000 (lines 308 to 312), translated separately from that
source; its body is the same rowwise filter. -/
def filteredDataV0 (env : JSEnv) (data : List Row) (searchTerm : String) : List Row :=
  data.filter (fun row =>
    (row.map Prod.snd).any (fun val =>
      strContainsB ((jsToString env val).toLower) searchTerm.toLower))

/-- A sort direction, the value of sortConfig.direction. -/
inductive SortDir where
  | asc : SortDir
  | desc : SortDir
deriving DecidableEq, Repr

/-- The sortConfig state: an optional sort key and a direction. -/
structure SortConfig where
  key : Option String
  direction : SortDir
deriving DecidableEq, Repr

/-- JS string comparison with the less than operator: lexicographic
comparison of the character sequences. -/
def strLtB : List Char → List Char → Bool
  | [], [] => false
  | [], _ :: _ => true
  | _ :: _, [] => false
  | a :: as, b :: bs =>
    if a < b then true else if b < a then false else strLtB as bs

/-- The comparator tail of the sortedData memo on two numbers: minus one,
one or zero, flipped by the direction. -/
def cmpNum (dir : SortDir) (x y : ℚ) : Int :=
  if x < y then (match dir with | .asc => -1 | .desc => 1)
  else if x > y then (match dir with | .asc => 1 | .desc => -1)
  else 0

/-- The comparator tail of the sortedData memo on two strings. -/
def cmpStr (dir : SortDir) (x y : String) : Int :=
  if strLtB x.toList y.toList then (match dir with | .asc => -1 | .desc => 1)
  else if strLtB y.toList x.toList then (match dir with | .asc => 1 | .desc => -1)
  else 0

/-- The row comparator passed to sort in the sortedData memo of
src/app/page.js (lines 638 to 660): compare numerically when both values
coerce to numbers and neither is the empty string, otherwise compare the
lowercased string coercions. -/
def cmpKey (env : JSEnv) (dir : SortDir) (key : String) (a b : Row) : Int :=
  let aValue := getCell a key
  let bValue := getCell b key
  match jsToNumber env aValue, jsToNumber env bValue with
  | some aNum, some bNum =>
    if aValue ≠ .str "" ∧ bValue ≠ .str "" then cmpNum dir aNum bNum
    else cmpStr dir (jsToString env aValue).toLower (jsToString env bValue).toLower
  | _, _ => cmpStr dir (jsToString env aValue).toLower (jsToString env bValue).toLower

/-- Insert an element into a list, before the first element the comparator
places strictly after it; the building block of the stable sort model. -/
def insertCmp {α : Type} (cmp : α → α → Int) (x : α) : List α → List α
  | [] => [x]
  | y :: ys => if cmp x y < 0 then x :: y :: ys else y :: insertCmp cmp x ys

/-- A stable comparison sort (insertion sort, inserting left to right),
modelling the stable Array.prototype.sort of the JS runtime. -/
def stableSortBy {α : Type} (cmp : α → α → Int) (l : List α) : List α :=
  l.foldl (fun acc x => insertCmp cmp x acc) []

/-- The sortedData memo of src/app/page.js (lines 635 to 663): copy the
filtered rows and, when a sort key is set, sort them with the cmpKey
comparator. -/
def sortedData (env : JSEnv) (cfg : SortConfig) (data : List Row) (searchTerm : String) : List Row :=
  let sortableItems := filteredData env data searchTerm
  match cfg.key with
  | none => sortableItems
  | some k => stableSortBy (cmpKey env cfg.direction k) sortableItems

/-- The handleSort click handler of src/app/page.js (lines 250 to 264):
an inactive column becomes the ascending key, an ascending key turns
descending, a descending key is cleared. -/
def handleSort (cfg : SortConfig) (key : String) : SortConfig :=
  if cfg.key = some key then
    match cfg.direction with
    | .asc => { key := some key, direction := .desc }
    | .desc => { key := none, direction := .asc }
  else
    { key := some key, direction := .asc }

/-- The initial sortConfig state (line 82): no key, ascending. -/
def initialSortConfig : SortConfig :=
  { key := none, direction := .asc }

/-- The sortConfig reached from the initial state by a sequence of header
clicks. -/
def clickSeq (keys : List String) : SortConfig :=
  keys.foldl handleSort initialSortConfig

/-- Array.prototype.slice with nonnegative bounds. -/
def jsSlice {α : Type} (l : List α) (start stop : ℕ) : List α :=
  (l.take stop).drop start

/-- The currentRows computation of src/app/page.js (lines 666 to 669):
the slice of the sorted data for the current page. -/
def currentRows {α : Type} (sorted : List α) (currentPage rowsPerPage : ℕ) : List α :=
  jsSlice sorted ((currentPage - 1) * rowsPerPage) (currentPage * rowsPerPage)

/-- The totalPages computation of src/app/page.js (line 665):
Math.ceil of the row count divided by the page size. -/
def totalPages (len rowsPerPage : ℕ) : ℤ :=
  ⌈(len : ℚ) / (rowsPerPage : ℚ)⌉

/-- The presence test of the statistics scan (line 145): a cell takes part
exactly when it is not null, not undefined and not the empty string. -/
def cellIsPresent (v : JSVal) : Bool :=
  !(v == .nullV || v == .undefV || v == .str "")

/-- One step of the single pass extraction in activeColumnStats
(lines 142 to 158): a present value that coerces to a number is pushed on
the numeric list, otherwise a present value with a valid Date.parse is
pushed on the date list. -/
def scanStep (env : JSEnv) (col : String) (acc : List ℚ × List ℚ) (row : Row) : List ℚ × List ℚ :=
  let val := getCell row col
  if cellIsPresent val then
    match jsToNumber env val with
    | some n => (acc.1 ++ [n], acc.2)
    | none =>
      match cellDateParse env val with
      | some d => (acc.1, acc.2 ++ [d])
      | none => acc
  else acc

/-- The single linear scan of activeColumnStats: the numeric values and the
date timestamps collected from the hovered column over all rows. -/
def scanColumn (env : JSEnv) (data : List Row) (col : String) : List ℚ × List ℚ :=
  data.foldl (scanStep env col) ([], [])

/-- Specification side view of the scan: the numeric value a row
contributes, if any. -/
def numExtract (env : JSEnv) (col : String) (row : Row) : Option ℚ :=
  let val := getCell row col
  if cellIsPresent val then jsToNumber env val else none

/-- Specification side view of the scan: the date timestamp a row
contributes, if any (only when the value does not coerce to a number). -/
def dateExtract (env : JSEnv) (col : String) (row : Row) : Option ℚ :=
  let val := getCell row col
  if cellIsPresent val ∧ jsToNumber env val = none then cellDateParse env val
  else none

/-- Ascending numeric sort, the model of values.sort with the numeric
comparator (line 171). -/
def sortNumeric (l : List ℚ) : List ℚ :=
  List.insertionSort (· ≤ ·) l

/-- Keep the first occurrence of every element, in order; models iterating
a JS Set in insertion order. -/
def dedupKeepFirst {α : Type} [DecidableEq α] (l : List α) : List α :=
  l.foldl (fun acc x => if x ∈ acc then acc else acc ++ [x]) []

/-- The largest multiplicity of any element of the list (the maxFreq of the
mode computation, lines 188 to 193). -/
def maxFreqOf (l : List ℚ) : ℕ :=
  (l.map (fun x => l.count x)).foldl max 0

/-- The distinct values of maximal multiplicity (the modes list of
lines 196 to 203, without the display truncation). -/
def modesOf (l : List ℚ) : List ℚ :=
  (dedupKeepFirst (sortNumeric l)).filter (fun x => l.count x = maxFreqOf l)

/-- The record returned by activeColumnStats, with display formatting
stripped: the sniffed column type, the count of analyzable values, the
mean and median, the modes (numeric columns), and the oldest and newest
timestamps (date columns). -/
structure ColStats where
  isDate : Bool
  count : ℕ
  mean : ℚ
  median : ℚ
  modes : Option (List ℚ)
  minDate : Option ℚ
  maxDate : Option ℚ
deriving DecidableEq, Repr

/-- The activeColumnStats memo of src/app/page.js (lines 135 to 228):
none when no column is hovered (the hovered name is falsy) or the data is
empty; otherwise a single scan collects numeric and date values, the
column is a date column when dates outnumber numbers, and the mean,
median, modes or date range are computed over the selected values. -/
def activeColumnStats (env : JSEnv) (data : List Row) (col : String) : Option ColStats :=
  if col = "" ∨ data.isEmpty then none
  else
    let scanned := scanColumn env data col
    let numericValues := scanned.1
    let dateValues := scanned.2
    let isDate : Bool := dateValues.length > numericValues.length
    let values := if isDate then dateValues else numericValues
    if values.length = 0 then none
    else
      let sum := values.foldl (· + ·) 0
      let meanVal := sum / (values.length : ℚ)
      let sorted := sortNumeric values
      let mid := values.length / 2
      let medianVal :=
        if values.length % 2 ≠ 0 then sorted.getD mid 0
        else (sorted.getD (mid - 1) 0 + sorted.getD mid 0) / 2
      let modes :=
        if isDate then none
        else some (if 1 < maxFreqOf values then modesOf values else [])
      let minD := if isDate then some (sorted.getD 0 0) else none
      let maxD := if isDate then some (sorted.getD (values.length - 1) 0) else none
      some ⟨isDate, values.length, meanVal, medianVal, modes, minD, maxD⟩

/-- The options object handed to the CSV library by parseCSV
(lines 386 to 389): header and skipEmptyLines are set, and the delimiter
field carries the configured separator (empty string means the library
auto-detects). -/
structure CSVOptions where
  header : Bool
  skipEmptyLines : Bool
  delimiter : String
deriving DecidableEq, Repr

/-- The delimiter preprocessing of parseCSV (line 384): the two character
string backslash t is translated to a real tab, anything else is kept. -/
def actualDelimiterOf (delimiter : String) : String :=
  if delimiter = "\\t" then "\t" else delimiter

/-- The full options record parseCSV passes to the CSV library for a
configured delimiter (default is the empty string). -/
def parseCSVOptions (delimiter : String) : CSVOptions :=
  { header := true, skipEmptyLines := true, delimiter := actualDelimiterOf delimiter }

/-- The options record produced when the import configuration modal is
confirmed: processPendingFile (lines 365 to 378) passes the configured
importDelimiter to parseCSV unchanged. -/
def processPendingFileOptions (importDelimiter : String) : CSVOptions :=
  parseCSVOptions importDelimiter

/-- The complete callback of parseCSV (lines 390 to 396) applied to the
rows delivered by the CSV library: when nonempty, the columns are the keys
of the first row and the data is the row list unchanged; when empty, no
state is set. -/
def parseCSV (results : List Row) : Option (List String × List Row) :=
  match results with
  | [] => none
  | firstRow :: rest => some (firstRow.map Prod.fst, firstRow :: rest)

/-- Sanitization of one Parquet row (lines 472 to 482): for each column of
the first row, a non null object value is flattened to its JSON string and
every other value is kept (a missing key stays undefined). -/
def sanitizeParquetRow (env : JSEnv) (cols : List String) (row : List (String × JSON)) : Row :=
  cols.map (fun col =>
    match row.lookup col with
    | some (JSON.obj fields) => (col, JSVal.str (env.stringify (JSON.obj fields)))
    | some (JSON.arr xs) => (col, JSVal.str (env.stringify (JSON.arr xs)))
    | some JSON.null => (col, JSVal.nullV)
    | some (JSON.bool b) => (col, JSVal.boolV b)
    | some (JSON.num q) => (col, JSVal.num q)
    | some (JSON.str s) => (col, JSVal.str s)
    | none => (col, JSVal.undefV))

/-- The onComplete callback of parseParquet (lines 466 to 487) applied to
the rows delivered by the Parquet reader: when nonempty, the columns are
the keys of the first row and every row is sanitized columnwise. -/
def parseParquet (env : JSEnv) (rows : List (List (String × JSON))) : Option (List String × List Row) :=
  match rows with
  | [] => none
  | firstRow :: rest =>
    let cols := firstRow.map Prod.fst
    some (cols, (firstRow :: rest).map (sanitizeParquetRow env cols))

/-- The keys a sampled JSON row contributes (lines 422 to 427): the field
names of an object, the index strings of an array, nothing for null or a
primitive. -/
def sampleKeys : JSON → List String
  | .obj fields => fields.map Prod.fst
  | .arr xs => (List.range xs.length).map (fun i => toString i)
  | _ => []

/-- The sampled column list of parseJSON (lines 418 to 429): the union, in
first insertion order, of the keys of the first min(n, 100) rows. -/
def sampledCols (rows : List JSON) : List String :=
  dedupKeepFirst ((rows.take (min rows.length 100)).map sampleKeys).flatten

/-- JS property access row[col] on a parsed JSON row: reading a property
of null throws a TypeError (the error branch, with the engine supplied
message taken from the environment); an object yields its own field; an
array yields its element at a canonical index string or its length; a
string yields its one character substring at a canonical index string or
its length; any other access is undefined.  Only own properties can
carry data here: prototype inherited properties are functions, which no
JSON cell can hold, so they are outside the modelled value universe. -/
def jsGet (env : JSEnv) : JSON → String → Except String (Option JSON)
  | .null, k => .error (env.nullReadError k)
  | .obj fields, k => .ok (fields.lookup k)
  | .arr xs, k =>
    if k = "length" then .ok (some (.num xs.length))
    else .ok ((List.range xs.length).findSome?
      (fun i => if toString i = k then xs[i]? else none))
  | .str s, k =>
    if k = "length" then .ok (some (.num s.length))
    else .ok ((List.range s.length).findSome?
      (fun i => if toString i = k then (s.toList[i]?).map
        (fun c => JSON.str (String.mk [c])) else none))
  | .bool _, _ => .ok none
  | .num _, _ => .ok none

/-- Sanitization of one JSON row (lines 432 to 442): for each sampled
column, the property access row[col] may throw (a null row with at least
one sampled column), a non null object value is flattened to its JSON
string, and a missing, undefined or null value becomes the empty
string. -/
def sanitizeJSONRow (env : JSEnv) (cols : List String) (row : JSON) : Except String Row :=
  match cols with
  | [] => .ok []
  | col :: rest =>
    match jsGet env row col with
    | .error e => .error e
    | .ok val =>
      let cell : JSVal :=
        match val with
        | some (JSON.obj fields) => .str (env.stringify (JSON.obj fields))
        | some (JSON.arr xs) => .str (env.stringify (JSON.arr xs))
        | some JSON.null => .str ""
        | some (JSON.bool b) => .boolV b
        | some (JSON.num q) => .num q
        | some (JSON.str s) => .str s
        | none => .str ""
      match sanitizeJSONRow env rest row with
      | .error e => .error e
      | .ok r => .ok ((col, cell) :: r)

/-- The jsonData.map of parseJSON (line 432), sanitizing the rows in
order: the first access that throws aborts the whole map, so nothing is
loaded. -/
def sanitizeJSONRows (env : JSEnv) (cols : List String) : List JSON → Except String (List Row)
  | [] => .ok []
  | row :: rest =>
    match sanitizeJSONRow env cols row with
    | .error e => .error e
    | .ok r =>
      match sanitizeJSONRows env cols rest with
      | .error e => .error e
      | .ok rs => .ok (r :: rs)

/-- The parseJSON body of src/app/page.js (lines 404 to 451) after
JSON.parse succeeded: a non array document is an error, an empty array
sets nothing, and otherwise the sampled columns and the sanitized rows
are loaded; a thrown property access (a null row under a nonempty column
list) is caught by the surrounding try, sets the error message, and
loads nothing. -/
def parseJSON (env : JSEnv) (jsonData : JSON) : Except String (Option (List String × List Row)) :=
  match jsonData with
  | .arr rows =>
    if rows.length = 0 then .ok none
    else
      match sanitizeJSONRows env (sampledCols rows) rows with
      | .error e => .error e
      | .ok out => .ok (some (sampledCols rows, out))
  | _ => .error "JSON file must contain an array of objects (e.g. [\x7b\x7d, \x7b\x7d])."

/-- An observable side effect of a handler: setting the error message,
toggling the loading flag, showing a confirm dialog, or downloading a file
(content, file name, mime type). -/
inductive Effect where
  | setErrorE : String → Effect
  | setLoadingE : Bool → Effect
  | confirmE : String → Effect
  | downloadE : String → String → String → Effect
deriving DecidableEq, Repr

/-- The file name rewrite fileName.replace of the export functions: drop a
final dot followed by one or more characters none of which is a dot or a
slash. -/
def stripExt (s : String) : String :=
  let rev := s.toList.reverse
  let ext := rev.takeWhile (fun c => c ≠ '.' && c ≠ '/')
  match rev.dropWhile (fun c => c ≠ '.' && c ≠ '/') with
  | '.' :: tail => if ext.isEmpty then s else String.mk tail.reverse
  | _ => s

/-- The error handler of parseCSV (lines 397 to 400): set an error message
carrying the library error and end the loading state; nothing else
happens. -/
def parseCSVOnError (errMessage : String) : List Effect :=
  [.setErrorE ("Error parsing file: " ++ errMessage), .setLoadingE false]

/-- The exportParquet action of src/app/page.js (lines 535 to 593),
observed through its effects after the conversion pipeline either yields
the encoded bytes or raises.  On success the Parquet file is downloaded;
on failure a confirm dialog shows the error and, exactly when the user
accepts, the data serialized as JSON is downloaded instead. -/
def exportParquet (env : JSEnv) (fileName : String) (data : List Row)
    (encodeResult : Except String String) (accept : Bool) : List Effect :=
  match encodeResult with
  | .ok bytes =>
    [.downloadE bytes (stripExt fileName ++ "_exported.parquet") "application/vnd.apache.parquet",
     .setLoadingE false]
  | .error e =>
    let msg := "Parquet export failed.\n\n" ++ "Error: " ++ e ++ "\n\n" ++ "Download as JSON instead?"
    [Effect.confirmE msg]
      ++ (if accept then
            [Effect.downloadE (env.stringifyRows data) (stripExt fileName ++ "_exported.json") "application/json"]
          else [])
      ++ [Effect.setLoadingE false]

/-- The row update to a JS object done by the cell editing handler:
spreading the old row and then assigning the edited column replaces that
value in place when the key is present and appends the key otherwise. -/
def updateRow (row : Row) (col : String) (value : JSVal) : Row :=
  if row.any (fun kv => kv.1 = col) then
    row.map (fun kv => if kv.1 = col then (kv.1, value) else kv)
  else row ++ [(col, value)]

/-- The cell editing onChange handler of src/app/page.js (lines 1081 to
1089): find the displayed row in the data array with indexOf; when found,
replace exactly that entry by the row with the edited column updated, and
otherwise leave the data unchanged. -/
def editCell (data : List Row) (row : Row) (col : String) (value : JSVal) : List Row :=
  match data with
  | [] => []
  | r :: rest =>
    if r = row then updateRow r col value :: rest
    else r :: editCell rest row col value

/-- Specification side description of one sanitized Parquet cell, written
from the words of the claim: a nested non null object value is flattened
to its JSON string, a primitive passes through unchanged, and a missing
key stays undefined. -/
def parquetCellSpec (env : JSEnv) : Option JSON → JSVal
  | some (JSON.obj fields) => .str (env.stringify (JSON.obj fields))
  | some (JSON.arr xs) => .str (env.stringify (JSON.arr xs))
  | some JSON.null => .nullV
  | some (JSON.bool b) => .boolV b
  | some (JSON.num q) => .num q
  | some (JSON.str s) => .str s
  | none => .undefV

/-- Specification side description of one sanitized JSON cell, written
from the words of the claim: a nested non null object value is flattened
to its JSON string, a missing, null or undefined cell becomes the empty
string, and a primitive passes through unchanged. -/
def jsonCellSpec (env : JSEnv) : Option JSON → JSVal
  | some (JSON.obj fields) => .str (env.stringify (JSON.obj fields))
  | some (JSON.arr xs) => .str (env.stringify (JSON.arr xs))
  | some JSON.null => .str ""
  | some (JSON.bool b) => .boolV b
  | some (JSON.num q) => .num q
  | some (JSON.str s) => .str s
  | none => .str ""

/-- A concrete instantiation of the abstract JS primitives, used only to
evaluate the model on concrete inputs: a small table of strings parse as
numbers, two fixed date literals parse as timestamps. -/
def defaultEnv : JSEnv where
  numParse := fun s =>
    if s = "10" then some 10 else if s = "2" then some 2
    else if s = "3" then some 3 else none
  dateParse := fun s =>
    if s = "2020-01-01" then some 1577836800000
    else if s = "2020-01-02" then some 1577923200000 else none
  numToString := fun q => toString q.num
  stringify := fun _ => "[object]"
  stringifyRows := fun _ => "[rows]"
  nullReadError := fun k =>
    "Cannot read properties of null (reading " ++ k ++ ")"

/-- A small concrete row for evaluating the model. -/
def rowA : Row := [("name", .str "alpha"), ("score", .str "10")]

/-- A small concrete row for evaluating the model. -/
def rowB : Row := [("name", .str "beta"), ("score", .str "2")]

/-- A small concrete row for evaluating the model. -/
def rowC : Row := [("name", .str "gamma"), ("score", .str "2")]

/-- A small concrete dataset for evaluating the model. -/
def exData : List Row := [rowA, rowB, rowC]

/-- A small concrete dataset whose hovered column holds dates. -/
def dateData : List Row :=
  [[("day", .str "2020-01-02")], [("day", .str "2020-01-01")]]

/-- Helper: listStartsWith decides the existence of a completing suffix. -/
theorem listStartsWith_iff {α : Type} [DecidableEq α] (n h : List α) :
    listStartsWith n h = true ↔ ∃ r, h = n ++ r := by
  induction n generalizing h with
  | nil =>
    simp only [listStartsWith, List.nil_append, true_iff]
    exact ⟨h, rfl⟩
  | cons a as ih =>
    cases h with
    | nil => simp [listStartsWith]
    | cons b bs =>
      simp only [listStartsWith, Bool.and_eq_true, decide_eq_true_eq, ih, List.cons_append]
      constructor
      · rintro ⟨rfl, r, rfl⟩
        exact ⟨r, rfl⟩
      · rintro ⟨r, hr⟩
        injection hr with h1 h2
        exact ⟨h1.symm, r, h2⟩

/-- Helper: listContainsSub decides the existence of a segment
decomposition. -/
theorem listContainsSub_iff {α : Type} [DecidableEq α] (n h : List α) :
    listContainsSub n h = true ↔ ∃ l r, h = l ++ n ++ r := by
  induction h with
  | nil =>
    simp only [listContainsSub, List.isEmpty_iff]
    constructor
    · rintro rfl
      exact ⟨[], [], rfl⟩
    · rintro ⟨l, r, hlr⟩
      rcases List.append_eq_nil.mp (List.append_eq_nil.mp hlr.symm).1 with ⟨-, hn⟩
      exact hn
  | cons b bs ih =>
    simp only [listContainsSub, Bool.or_eq_true, listStartsWith_iff, ih]
    constructor
    · rintro (⟨r, hr⟩ | ⟨l, r, hr⟩)
      · exact ⟨[], r, by simpa using hr⟩
      · exact ⟨b :: l, r, by simp [hr]⟩
    · rintro ⟨l, r, hr⟩
      cases l with
      | nil =>
        left
        exact ⟨r, by simpa using hr⟩
      | cons x xs =>
        right
        injection hr with h1 h2
        exact ⟨xs, r, h2⟩

/-- Helper: the JS includes test decides substring containment of the
character sequences. -/
theorem strContainsB_iff (s sub : String) :
    strContainsB s sub = true ↔ ∃ l r, s.toList = l ++ sub.toList ++ r :=
  listContainsSub_iff sub.toList s.toList

/-- Helper: inserting with a comparator produces a permutation of the
cons. -/
theorem insertCmp_perm {α : Type} (cmp : α → α → Int) (x : α) (l : List α) :
    insertCmp cmp x l ~ x :: l := by
  induction l with
  | nil => exact List.Perm.refl _
  | cons y ys ih =>
    simp only [insertCmp]
    split
    · exact List.Perm.refl _
    · exact List.Perm.trans (ih.cons y) (List.Perm.swap x y ys)

/-- Helper: the stable sort model permutes its input. -/
theorem stableSortBy_perm {α : Type} (cmp : α → α → Int) (l : List α) :
    stableSortBy cmp l ~ l := by
  have aux : ∀ (l acc : List α),
      l.foldl (fun a x => insertCmp cmp x a) acc ~ acc ++ l := by
    intro l
    induction l with
    | nil => intro acc; simp
    | cons x xs ih =>
      intro acc
      calc (x :: xs).foldl (fun a x => insertCmp cmp x a) acc
          = xs.foldl (fun a x => insertCmp cmp x a) (insertCmp cmp x acc) := rfl
        _ ~ insertCmp cmp x acc ++ xs := ih _
        _ ~ (x :: acc) ++ xs := (insertCmp_perm cmp x acc).append_right xs
        _ ~ acc ++ x :: xs := List.perm_middle.symm
  simpa using aux l []

/-- Helper: dedupKeepFirst preserves membership. -/
theorem dedupKeepFirst_mem {α : Type} [DecidableEq α] (l : List α) (x : α) :
    x ∈ dedupKeepFirst l ↔ x ∈ l := by
  have aux : ∀ (l acc : List α),
      (x ∈ l.foldl (fun a y => if y ∈ a then a else a ++ [y]) acc ↔ x ∈ acc ∨ x ∈ l) := by
    intro l
    induction l with
    | nil => intro acc; simp
    | cons y ys ih =>
      intro acc
      simp only [List.foldl_cons]
      rw [ih]
      by_cases hy : y ∈ acc
      · simp only [hy, if_true, List.mem_cons]
        constructor
        · rintro (h | h)
          · exact Or.inl h
          · exact Or.inr (Or.inr h)
        · rintro (h | rfl | h)
          · exact Or.inl h
          · exact Or.inl hy
          · exact Or.inr h
      · simp only [hy, if_false, List.mem_append, List.mem_singleton, List.mem_cons]
        tauto
  simpa using aux l []

/-- Helper: dedupKeepFirst yields a list without duplicates. -/
theorem dedupKeepFirst_nodup {α : Type} [DecidableEq α] (l : List α) :
    (dedupKeepFirst l).Nodup := by
  have aux : ∀ (l acc : List α), acc.Nodup →
      (l.foldl (fun a y => if y ∈ a then a else a ++ [y]) acc).Nodup := by
    intro l
    induction l with
    | nil => intro acc h; simpa using h
    | cons y ys ih =>
      intro acc h
      simp only [List.foldl_cons]
      by_cases hy : y ∈ acc
      · simpa [hy] using ih acc h
      · have happ : (acc ++ [y]).Nodup := by
          refine List.Nodup.append h (List.nodup_singleton y) ?_
          intro a ha hb
          rw [List.mem_singleton] at hb
          subst hb
          exact hy ha
        simpa [hy] using ih _ happ
  exact aux l [] List.nodup_nil

/-- Helper: folding addition from a seed computes the seed plus the sum. -/
theorem foldl_add_eq_sum (l : List ℚ) (q : ℚ) :
    l.foldl (· + ·) q = q + l.sum := by
  induction l generalizing q with
  | nil => simp
  | cons x xs ih =>
    simp only [List.foldl_cons, List.sum_cons, ih]
    ring

/-- Helper: the single pass scan collects exactly the numeric extractions
and the date extractions of the rows, in order. -/
theorem scanColumn_eq (env : JSEnv) (col : String) (data : List Row) :
    scanColumn env data col =
      (data.filterMap (numExtract env col), data.filterMap (dateExtract env col)) := by
  have aux : ∀ (data : List Row) (acc : List ℚ × List ℚ),
      data.foldl (scanStep env col) acc =
        (acc.1 ++ data.filterMap (numExtract env col),
         acc.2 ++ data.filterMap (dateExtract env col)) := by
    intro data
    induction data with
    | nil => intro acc; simp
    | cons r rs ih =>
      intro acc
      simp only [List.foldl_cons]
      rw [ih]
      simp only [scanStep, numExtract, dateExtract, List.filterMap_cons]
      by_cases hp : cellIsPresent (getCell r col)
      · simp only [hp, if_true]
        cases hn : jsToNumber env (getCell r col) with
        | some n => simp [hn]
        | none =>
          cases hd : cellDateParse env (getCell r col) with
          | some d => simp [hn, hd]
          | none => simp [hn, hd]
      · simp [hp]
  simpa using aux data ([], [])

/-- Helper: looking up a mapped key value pair list built over the column
list returns the generating function at any member column. -/
theorem lookup_map_self {β : Type} (cols : List String) (f : String → β) (c : String)
    (hc : c ∈ cols) :
    (cols.map (fun k => (k, f k))).lookup c = some (f c) := by
  induction cols with
  | nil => cases hc
  | cons k ks ih =>
    simp only [List.map_cons, List.lookup]
    by_cases h : c = k
    · subst h
      simp
    · have hmem : c ∈ ks := by
        rcases List.mem_cons.mp hc with h1 | h1
        · exact absurd h1 h
        · exact h1
      have : (c == k) = false := beq_eq_false_iff_ne.mpr h
      simp [this, ih hmem]

/-- Claim C10: the row filtering logic of the two source revisions is
equivalent: on every environment, data array and search term the
filteredData computation of src/app/page.js and the filteredData
computation of src/unnamed/part_000 produce the same list of rows. -/
theorem filteredData_equiv_v0 (env : JSEnv) (data : List Row) (searchTerm : String) :
    filteredData env data searchTerm = filteredDataV0 env data searchTerm := rfl

/-- Claim C3 counterexample: with an empty search term a row with no
cells is dropped: on the dataset holding a single empty row, the filter
returns the empty list, so not every row is included. -/
theorem filteredData_counterexample :
    ¬ (filteredData defaultEnv [[]] "" = [[]]) := by decide

/-- Claim C3 (amended): the search filter is a linear filter: a row is
included iff at least one of its cell values, coerced to a lowercase
string, contains the lowercase search term as a substring; with an empty
search term every row having at least one cell is included (an empty row
matches nothing and is dropped); the included rows keep their relative
dataset order. -/
theorem filteredData_spec (env : JSEnv) (data : List Row) (searchTerm : String) :
    (∀ row, row ∈ filteredData env data searchTerm ↔
        row ∈ data ∧ ∃ val ∈ row.map Prod.snd,
          ∃ l r, (jsToString env val).toLower.toList
            = l ++ searchTerm.toLower.toList ++ r) ∧
    (searchTerm = "" →
        filteredData env data searchTerm = data.filter (fun row => !row.isEmpty)) ∧
    filteredData env data searchTerm <+ data := by
  refine ⟨?_, ?_, List.filter_sublist data⟩
  · intro row
    simp only [filteredData, List.mem_filter, List.any_eq_true]
    constructor
    · rintro ⟨hmem, v, hv, hc⟩
      exact ⟨hmem, v, hv, (strContainsB_iff _ _).mp hc⟩
    · rintro ⟨hmem, v, hv, hc⟩
      exact ⟨hmem, v, hv, (strContainsB_iff _ _).mpr hc⟩
  · rintro rfl
    unfold filteredData
    apply List.filter_congr
    intro row _
    cases row with
    | nil => simp
    | cons kv rest =>
      simp only [List.isEmpty_cons, Bool.not_false, List.any_eq_true]
      have he : "".toLower.data = ([] : List Char) := by
        simp [String.toLower, String.map_eq]
      refine ⟨kv.2, by simp,
        (strContainsB_iff _ _).mpr ⟨[], (jsToString env kv.2).toLower.toList, by simp [he]⟩⟩

/-- Claim C3 witness: on the concrete dataset with the empty search term,
the filter keeps exactly the rows with at least one cell. -/
theorem filteredData_witness :
    filteredData defaultEnv exData "" = exData.filter (fun row => !row.isEmpty) :=
  (filteredData_spec defaultEnv exData "").2.1 rfl

/-- Claim C8: every sort configuration reachable by header clicks is the
unsorted state (with ascending direction) or an active key with one of
the two directions; clicking an inactive column selects it ascending,
clicking an ascending key turns it descending, clicking a descending key
clears the sort, and three consecutive clicks on an inactive column
return to the unsorted state. -/
theorem handleSort_spec :
    (∀ (cfg : SortConfig) (c : String), cfg.key ≠ some c →
        handleSort cfg c = { key := some c, direction := .asc }) ∧
    (∀ (cfg : SortConfig) (c : String), cfg.key = some c → cfg.direction = .asc →
        handleSort cfg c = { key := some c, direction := .desc }) ∧
    (∀ (cfg : SortConfig) (c : String), cfg.key = some c → cfg.direction = .desc →
        handleSort cfg c = { key := none, direction := .asc }) ∧
    (∀ (cfg : SortConfig) (c : String), cfg.key ≠ some c →
        handleSort (handleSort (handleSort cfg c) c) c
          = { key := none, direction := .asc }) ∧
    (∀ keys : List String,
        (clickSeq keys).key = none → (clickSeq keys).direction = .asc) := by
  have h1 : ∀ (cfg : SortConfig) (c : String), cfg.key ≠ some c →
      handleSort cfg c = { key := some c, direction := .asc } := by
    intro cfg c h
    simp [handleSort, h]
  have h2 : ∀ (cfg : SortConfig) (c : String), cfg.key = some c → cfg.direction = .asc →
      handleSort cfg c = { key := some c, direction := .desc } := by
    intro cfg c hk hd
    simp [handleSort, hk, hd]
  have h3 : ∀ (cfg : SortConfig) (c : String), cfg.key = some c → cfg.direction = .desc →
      handleSort cfg c = { key := none, direction := .asc } := by
    intro cfg c hk hd
    simp [handleSort, hk, hd]
  have inv : ∀ (keys : List String) (cfg : SortConfig),
      (cfg.key = none → cfg.direction = .asc) →
      ((keys.foldl handleSort cfg).key = none →
        (keys.foldl handleSort cfg).direction = .asc) := by
    intro keys
    induction keys with
    | nil => intro cfg h; simpa using h
    | cons k ks ih =>
      intro cfg h
      simp only [List.foldl_cons]
      apply ih
      obtain ⟨ckey, cdir⟩ := cfg
      unfold handleSort
      split
      · cases cdir <;> simp
      · simp
  refine ⟨h1, h2, h3, ?_, fun keys => inv keys initialSortConfig (fun _ => rfl)⟩
  intro cfg c h
  rw [h1 cfg c h]
  rw [h2 { key := some c, direction := .asc } c rfl rfl]
  rw [h3 { key := some c, direction := .desc } c rfl rfl]

/-- Claim C8 witness: three clicks on a fresh column from the initial
state end unsorted. -/
theorem handleSort_witness :
    handleSort (handleSort (handleSort initialSortConfig "name") "name") "name"
      = { key := none, direction := .asc } :=
  handleSort_spec.2.2.2.1 initialSortConfig "name" (by decide)

/-- Claim C6 counterexample: when the configured delimiter is the two
character string of a backslash followed by the letter t, the delimiter
option handed to the CSV parser is a real tab character, not the
configured string. -/
theorem csvDelimiter_counterexample :
    ¬ ((processPendingFileOptions "\\t").delimiter = "\\t") := by decide

/-- Claim C6 (amended): the custom delimiter configuration is a thin
options pass through to the CSV library: the delimiter option equals the
configured string, except that the two character string backslash t is
translated to a real tab; the empty string is passed through and means
auto-detection; the header and skipEmptyLines options are always set. -/
theorem csvDelimiter_spec (d : String) :
    (d ≠ "\\t" → (processPendingFileOptions d).delimiter = d) ∧
    (processPendingFileOptions "\\t").delimiter = "\t" ∧
    (processPendingFileOptions "").delimiter = "" ∧
    (processPendingFileOptions d).header = true ∧
    (processPendingFileOptions d).skipEmptyLines = true ∧
    processPendingFileOptions d = parseCSVOptions d := by
  refine ⟨?_, by decide, by decide, rfl, rfl, rfl⟩
  intro hd
  simp [processPendingFileOptions, parseCSVOptions, actualDelimiterOf, hd]

/-- Claim C6 witness: a semicolon delimiter passes through unchanged. -/
theorem csvDelimiter_witness :
    (processPendingFileOptions ";").delimiter = ";" :=
  (csvDelimiter_spec ";").1 (by decide)

/-- Helper: updating at a column not in the head passes the head
through. -/
theorem updateRow_cons_ne (kv : String × JSVal) (rest : Row) (col : String) (v : JSVal)
    (hk : kv.1 ≠ col) :
    updateRow (kv :: rest) col v = kv :: updateRow rest col v := by
  unfold updateRow
  by_cases h : rest.any (fun p => p.1 = col)
  · simp [List.any_cons, hk, h]
  · simp [List.any_cons, hk, h]

/-- Helper: updating at the head column rewrites the head value and maps
the tail. -/
theorem updateRow_cons_eq (k : String) (w : JSVal) (rest : Row) (v : JSVal) :
    updateRow ((k, w) :: rest) k v
      = (k, v) :: rest.map (fun p => if p.1 = k then (p.1, v) else p) := by
  unfold updateRow
  simp [List.any_cons]

/-- Helper: the updated row holds the new value at the edited column. -/
theorem lookup_updateRow_self (row : Row) (col : String) (v : JSVal) :
    (updateRow row col v).lookup col = some v := by
  induction row with
  | nil => simp [updateRow, List.lookup]
  | cons kv rest ih =>
    obtain ⟨k, w⟩ := kv
    by_cases hk : k = col
    · subst hk
      rw [updateRow_cons_eq]
      simp [List.lookup]
    · rw [updateRow_cons_ne (k, w) rest col v hk]
      simp [List.lookup, beq_eq_false_iff_ne.mpr (Ne.symm hk), ih]

/-- Helper: rewriting the edited column in a mapped row leaves every other
column lookup unchanged. -/
theorem lookup_mapUpd_other (rest : Row) (col c : String) (v : JSVal) (hc : c ≠ col) :
    (rest.map (fun p => if p.1 = col then (p.1, v) else p)).lookup c = rest.lookup c := by
  induction rest with
  | nil => rfl
  | cons p ps ih =>
    obtain ⟨k, w⟩ := p
    rw [List.map_cons]
    by_cases hk : k = col
    · have h1 : (if ((k, w) : String × JSVal).1 = col then (((k, w) : String × JSVal).1, v)
            else ((k, w) : String × JSVal)) = ((k, v) : String × JSVal) := by simp [hk]
      rw [h1, List.lookup_cons, List.lookup_cons]
      have hck : (c == k) = false := beq_eq_false_iff_ne.mpr (fun h => hc (h.trans hk))
      simp [hck, ih]
    · have h1 : (if ((k, w) : String × JSVal).1 = col then (((k, w) : String × JSVal).1, v)
            else ((k, w) : String × JSVal)) = ((k, w) : String × JSVal) := by simp [hk]
      rw [h1, List.lookup_cons, List.lookup_cons]
      cases hck : (c == k) with
      | true => simp
      | false => simp [ih]

/-- Helper: appending the new key value pair leaves every other column
lookup unchanged. -/
theorem lookup_append_single_other (row : Row) (col c : String) (v : JSVal) (hc : c ≠ col) :
    (row ++ [(col, v)]).lookup c = row.lookup c := by
  induction row with
  | nil => simp [List.lookup, beq_eq_false_iff_ne.mpr hc]
  | cons p ps ih =>
    obtain ⟨k, w⟩ := p
    by_cases hck : c = k
    · subst hck
      simp [List.lookup]
    · simp [List.lookup, beq_eq_false_iff_ne.mpr hck, ih]

/-- Helper: every column other than the edited one keeps its previous
value in the updated row. -/
theorem lookup_updateRow_other (row : Row) (col c : String) (v : JSVal) (hc : c ≠ col) :
    (updateRow row col v).lookup c = row.lookup c := by
  unfold updateRow
  by_cases h : row.any (fun p => p.1 = col)
  · simp only [h, if_true]
    exact lookup_mapUpd_other row col c v hc
  · simp only [h, if_false]
    exact lookup_append_single_other row col c v hc

/-- Claim C9: editing a displayed cell changes only that row and only
that column: when the displayed row occurs in the data array, its first
occurrence is replaced by the row with the edited column set and every
other entry is untouched; within the edited row every other column keeps
its previous value; when the row is not found, the data is left
completely unchanged. -/
theorem editCell_spec (data : List Row) (row : Row) (col : String) (v : JSVal) :
    (row ∉ data → editCell data row col v = data) ∧
    (∀ pre suf, data = pre ++ row :: suf → row ∉ pre →
        editCell data row col v = pre ++ updateRow row col v :: suf) ∧
    (updateRow row col v).lookup col = some v ∧
    (∀ c, c ≠ col → (updateRow row col v).lookup c = row.lookup c) := by
  have aux0 : ∀ d : List Row, row ∉ d → editCell d row col v = d := by
    intro d
    induction d with
    | nil => intro _; rfl
    | cons r rest ih =>
      intro hmem
      simp only [List.mem_cons, not_or] at hmem
      simp only [editCell]
      rw [if_neg (Ne.symm hmem.1), ih hmem.2]
  have aux1 : ∀ (pre suf : List Row), row ∉ pre →
      editCell (pre ++ row :: suf) row col v = pre ++ updateRow row col v :: suf := by
    intro pre
    induction pre with
    | nil =>
      intro suf _
      simp [editCell]
    | cons p ps ih =>
      intro suf h
      simp only [List.mem_cons, not_or] at h
      simp only [List.cons_append, editCell]
      rw [if_neg (Ne.symm h.1)]
      exact congrArg (fun t => p :: t) (ih suf h.2)
  exact ⟨aux0 data, fun pre suf hd hp => hd ▸ aux1 pre suf hp,
    lookup_updateRow_self row col v,
    fun c hc => lookup_updateRow_other row col c v hc⟩

/-- Claim C9 witness: editing the score cell of the second concrete row
replaces exactly that entry of the dataset. -/
theorem editCell_witness :
    editCell exData rowB "score" (.str "7")
      = [rowA, updateRow rowB "score" (.str "7"), rowC] := by
  have h := (editCell_spec exData rowB "score" (.str "7")).2.1
    [rowA] [rowC] (by decide) (by decide)
  simpa using h

/-- Claim C7: when a library call fails the handling is a message and, for
the Parquet export only, an optional JSON fallback: if the export pipeline
raises an error, a confirm dialog whose message contains the error text is
shown, a download happens exactly when the user accepts, and that download
is the dataset serialized as JSON under the exported json name; a CSV
parse failure sets an error message containing the library error and ends
the loading state, with no download and no dialog. -/
theorem exportParquet_spec (env : JSEnv) (fileName : String) (data : List Row)
    (encodeResult : Except String String) (accept : Bool) (e : String)
    (herr : encodeResult = .error e) :
    (∃ msg, Effect.confirmE msg ∈ exportParquet env fileName data encodeResult accept ∧
        ∃ l r, msg.toList = l ++ e.toList ++ r) ∧
    ((∃ c n m, Effect.downloadE c n m ∈ exportParquet env fileName data encodeResult accept)
        ↔ accept = true) ∧
    (accept = true →
        Effect.downloadE (env.stringifyRows data)
            (stripExt fileName ++ "_exported.json") "application/json"
          ∈ exportParquet env fileName data encodeResult accept) ∧
    (∀ pe, ∃ em, parseCSVOnError pe = [.setErrorE em, .setLoadingE false] ∧
        (∃ l r, em.toList = l ++ pe.toList ++ r) ∧
        (∀ c n m, Effect.downloadE c n m ∉ parseCSVOnError pe) ∧
        (∀ m, Effect.confirmE m ∉ parseCSVOnError pe)) := by
  subst herr
  refine ⟨?_, ?_, ?_, ?_⟩
  · refine ⟨"Parquet export failed.\n\n" ++ "Error: " ++ e ++ "\n\n"
        ++ "Download as JSON instead?", ?_, ?_⟩
    · simp [exportParquet]
    · refine ⟨("Parquet export failed.\n\n" ++ "Error: ").toList,
        ("\n\n" ++ "Download as JSON instead?").toList, ?_⟩
      simp [String.toList, String.data_append, List.append_assoc]
  · cases accept with
    | false =>
      simp only [exportParquet]
      constructor
      · rintro ⟨c, n, m, hm⟩
        simp at hm
      · intro h
        cases h
    | true =>
      simp only [exportParquet, iff_true]
      exact ⟨env.stringifyRows data, stripExt fileName ++ "_exported.json",
        "application/json", by simp⟩
  · intro ha
    subst ha
    simp [exportParquet]
  · intro pe
    refine ⟨"Error parsing file: " ++ pe, rfl, ?_, ?_, ?_⟩
    · exact ⟨"Error parsing file: ".toList, [], by simp [String.toList, String.data_append]⟩
    · intro c n m hm
      simp [parseCSVOnError] at hm
    · intro m hm
      simp [parseCSVOnError] at hm

/-- Claim C7 witness: a failing export with the user declining shows the
dialog and downloads nothing; the error text occurs in the message. -/
theorem exportParquet_witness :
    ¬ (∃ c n m, Effect.downloadE c n m
        ∈ exportParquet defaultEnv "data.csv" exData (.error "boom") false) := by
  have h := (exportParquet_spec defaultEnv "data.csv" exData (.error "boom") false "boom" rfl).2.1
  intro hex
  exact Bool.false_ne_true (h.mp hex)

/-- Helper: the numeric comparator flips its sign with the direction. -/
theorem cmpNum_desc (x y : ℚ) : cmpNum .desc x y = - cmpNum .asc x y := by
  unfold cmpNum
  split_ifs <;> simp

/-- Helper: the string comparator flips its sign with the direction. -/
theorem cmpStr_desc (x y : String) : cmpStr .desc x y = - cmpStr .asc x y := by
  unfold cmpStr
  split_ifs <;> simp

/-- Claim C2: the grid row order is a comparison sort of the filtered
rows: with no sort key the filtered rows keep their original order; with
a key the result is a permutation of the filtered rows; the row
comparator compares numerically exactly when both values under the sort
key coerce to numbers and neither is the empty string, and otherwise
compares the lowercased string coercions; the descending direction is the
exact flip of the ascending one. -/
theorem sortedData_spec (env : JSEnv) (data : List Row) (searchTerm : String)
    (cfg : SortConfig) :
    (cfg.key = none → sortedData env cfg data searchTerm = filteredData env data searchTerm) ∧
    (sortedData env cfg data searchTerm ~ filteredData env data searchTerm) ∧
    (∀ (k : String) (a b : Row) (x y : ℚ),
        jsToNumber env (getCell a k) = some x → jsToNumber env (getCell b k) = some y →
        getCell a k ≠ .str "" → getCell b k ≠ .str "" →
        cmpKey env .asc k a b = (if x < y then -1 else if y < x then 1 else 0)) ∧
    (∀ (k : String) (a b : Row),
        (jsToNumber env (getCell a k) = none ∨ jsToNumber env (getCell b k) = none ∨
          getCell a k = .str "" ∨ getCell b k = .str "") →
        cmpKey env .asc k a b =
          (if strLtB (jsToString env (getCell a k)).toLower.toList
                (jsToString env (getCell b k)).toLower.toList then -1
           else if strLtB (jsToString env (getCell b k)).toLower.toList
                (jsToString env (getCell a k)).toLower.toList then 1
           else 0)) ∧
    (∀ (k : String) (a b : Row), cmpKey env .desc k a b = - cmpKey env .asc k a b) := by
  refine ⟨?_, ?_, ?_, ?_, ?_⟩
  · intro h
    simp [sortedData, h]
  · cases hk : cfg.key with
    | none => simp [sortedData, hk]
    | some k =>
      simp only [sortedData, hk]
      exact stableSortBy_perm _ _
  · intro k a b x y hx hy ha hb
    simp [cmpKey, hx, hy, ha, hb, cmpNum, gt_iff_lt]
  · intro k a b h
    cases hA : jsToNumber env (getCell a k) with
    | none => simp [cmpKey, hA, cmpStr]
    | some x =>
      cases hB : jsToNumber env (getCell b k) with
      | none => simp [cmpKey, hA, hB, cmpStr]
      | some y =>
        rcases h with h | h | h | h
        · rw [hA] at h; cases h
        · rw [hB] at h; cases h
        · rw [h] at hA
          simp [cmpKey, hA, hB, cmpStr, h]
        · rw [h] at hB
          simp [cmpKey, hA, hB, cmpStr, h]
  · intro k a b
    cases hA : jsToNumber env (getCell a k) with
    | none => simp [cmpKey, hA, cmpStr_desc]
    | some x =>
      cases hB : jsToNumber env (getCell b k) with
      | none => simp [cmpKey, hA, hB, cmpStr_desc]
      | some y =>
        by_cases hcond : getCell a k ≠ .str "" ∧ getCell b k ≠ .str ""
        · simp [cmpKey, hA, hB, hcond, cmpNum_desc]
        · simp [cmpKey, hA, hB, hcond, cmpStr_desc]

/-- Claim C2 witness: on two concrete rows whose score cells both parse
as numbers, the ascending comparator orders them numerically. -/
theorem sortedData_witness :
    cmpKey defaultEnv .asc "score" rowA rowB = 1 := by
  have h := (sortedData_spec defaultEnv exData ""
      { key := some "score", direction := .asc }).2.2.1
    "score" rowA rowB 10 2 (by decide) (by decide) (by decide) (by decide)
  norm_num at h
  exact h

/-- Claim C4: pagination is slice based: for a page number p at least 1
and a positive page size r, the displayed rows are exactly the elements
of the sorted data at indices (p-1)r through pr-1 (fewer on the last
page), and the total page count is the ceiling of the row count divided
by r: zero for no rows, and otherwise the unique integer t with
r(t-1) < length and length at most r times t. -/
theorem currentRows_spec {α : Type} (sorted : List α) (p r : ℕ) (hp : 1 ≤ p) (hr : 0 < r) :
    (∀ i, i < r → (currentRows sorted p r)[i]? = sorted[(p - 1) * r + i]?) ∧
    (currentRows sorted p r).length = min r (sorted.length - (p - 1) * r) ∧
    (sorted.length = 0 → totalPages sorted.length r = 0) ∧
    (0 < sorted.length →
      (r : ℤ) * (totalPages sorted.length r - 1) < (sorted.length : ℤ) ∧
      (sorted.length : ℤ) ≤ (r : ℤ) * totalPages sorted.length r) := by
  obtain ⟨q, rfl⟩ : ∃ q, p = q + 1 := ⟨p - 1, by omega⟩
  have hq : (q + 1 - 1) * r = q * r := by simp
  have hq2 : (q + 1) * r = q * r + r := by ring
  refine ⟨?_, ?_, ?_, ?_⟩
  · intro i hi
    simp only [currentRows, jsSlice, hq, hq2]
    rw [List.getElem?_drop]
    exact List.getElem?_take_of_lt (Nat.add_lt_add_left hi _)
  · simp only [currentRows, jsSlice, hq, hq2, List.length_drop, List.length_take]
    generalize q * r = t
    omega
  · intro h
    simp [totalPages, h]
  · intro hlen
    have hrQ : (0 : ℚ) < (r : ℚ) := by exact_mod_cast hr
    constructor
    · have h1 : ((totalPages sorted.length r : ℤ) : ℚ)
          < (sorted.length : ℚ) / (r : ℚ) + 1 := by
        simpa [totalPages] using Int.ceil_lt_add_one ((sorted.length : ℚ) / (r : ℚ))
      have h2 : (((totalPages sorted.length r : ℤ) : ℚ) - 1) * (r : ℚ)
          < (sorted.length : ℚ) := (lt_div_iff₀ hrQ).mp (by linarith)
      have hcomm := mul_comm ((r : ℚ)) (((totalPages sorted.length r : ℤ) : ℚ) - 1)
      have h3 : (r : ℚ) * (((totalPages sorted.length r : ℤ) : ℚ) - 1)
          < (sorted.length : ℚ) := by linarith [h2, hcomm]
      exact_mod_cast h3
    · have h1 : (sorted.length : ℚ) / (r : ℚ)
          ≤ ((totalPages sorted.length r : ℤ) : ℚ) := by
        simpa [totalPages] using Int.le_ceil ((sorted.length : ℚ) / (r : ℚ))
      have h2 : (sorted.length : ℚ)
          ≤ ((totalPages sorted.length r : ℤ) : ℚ) * (r : ℚ) := (div_le_iff₀ hrQ).mp h1
      have hcomm := mul_comm ((r : ℚ)) (((totalPages sorted.length r : ℤ) : ℚ))
      have h3 : (sorted.length : ℚ)
          ≤ (r : ℚ) * ((totalPages sorted.length r : ℤ) : ℚ) := by
        linarith [h2, hcomm]
      exact_mod_cast h3

/-- Claim C4 witness: on a concrete seven element list with page 2 of
size 3, the second displayed row is the fifth element and the page count
is the ceiling of seven thirds. -/
theorem currentRows_witness :
    (currentRows [10, 20, 30, 40, 50, 60, 70] 2 3)[1]?
        = ([10, 20, 30, 40, 50, 60, 70] : List ℕ)[(2 - 1) * 3 + 1]? ∧
    totalPages 7 3 = 3 := by
  have hspec := currentRows_spec ([10, 20, 30, 40, 50, 60, 70] : List ℕ) 2 3
    (by decide) (by decide)
  have h1 := hspec.1 1 (by decide)
  have h4 := hspec.2.2.2 (by simp)
  refine ⟨h1, ?_⟩
  norm_num at h4
  omega

/-- Helper: projecting the keys of a columnwise built row gives back the
column list. -/
theorem map_fst_map_pair {β : Type} (cols : List String) (f : String → β) :
    (cols.map (fun c => (c, f c))).map Prod.fst = cols := by
  simp [List.map_map, Function.comp_def]

/-- Helper: the sanitized Parquet row is the columnwise table of the
specification cell description. -/
theorem sanitizeParquetRow_eq (env : JSEnv) (cols : List String) (row : List (String × JSON)) :
    sanitizeParquetRow env cols row
      = cols.map (fun c => (c, parquetCellSpec env (row.lookup c))) := by
  unfold sanitizeParquetRow parquetCellSpec
  apply List.map_congr_left
  intro c _
  cases h : row.lookup c with
  | none => simp [h]
  | some j => cases j <;> simp [h]

/-- Helper: when every sampled column access succeeds, the sanitized
JSON row is the columnwise table of the specification cell
description. -/
theorem sanitizeJSONRow_eq (env : JSEnv) (row : JSON) (v : String → Option JSON) :
    ∀ cols : List String, (∀ c ∈ cols, jsGet env row c = .ok (v c)) →
      sanitizeJSONRow env cols row
        = .ok (cols.map (fun c => (c, jsonCellSpec env (v c)))) := by
  intro cols
  induction cols with
  | nil => intro _; rfl
  | cons col rest ih =>
    intro hv
    have h1 : jsGet env row col = .ok (v col) := hv col (List.mem_cons_self col rest)
    have h2 := ih (fun c hc => hv c (List.mem_cons_of_mem col hc))
    simp only [sanitizeJSONRow, h1, h2, List.map_cons]
    cases hvc : v col with
    | none => simp [jsonCellSpec]
    | some j => cases j <;> simp [jsonCellSpec]

/-- Helper: a successfully sanitized JSON row has the sampled columns as
keys, and each cell comes from a successful property access through the
specification cell description. -/
theorem sanitizeJSONRow_ok_inv (env : JSEnv) (row : JSON) :
    ∀ (cols : List String) (orow : Row), sanitizeJSONRow env cols row = .ok orow →
      orow.map Prod.fst = cols ∧
      ∀ c ∈ cols, ∃ v, jsGet env row c = .ok v
        ∧ orow.lookup c = some (jsonCellSpec env v) := by
  intro cols
  induction cols with
  | nil =>
    intro orow h
    injection h with h
    subst h
    exact ⟨rfl, fun c hc => absurd hc (List.not_mem_nil c)⟩
  | cons col rest ih =>
    intro orow h
    simp only [sanitizeJSONRow] at h
    cases hj : jsGet env row col with
    | error e =>
      simp only [hj] at h
      exact Except.noConfusion h
    | ok val =>
      simp only [hj] at h
      cases hs : sanitizeJSONRow env rest row with
      | error e =>
        simp only [hs] at h
        exact Except.noConfusion h
      | ok r =>
        simp only [hs] at h
        injection h with h
        subst h
        obtain ⟨hkeys, hcells⟩ := ih r hs
        constructor
        · simp [hkeys]
        · intro c hc
          by_cases hceq : c = col
          · subst hceq
            refine ⟨val, hj, ?_⟩
            rw [List.lookup_cons]
            simp only [beq_self_eq_true]
            cases val with
            | none => rfl
            | some j => cases j <;> rfl
          · rcases List.mem_cons.mp hc with h1 | h1
            · exact absurd h1 hceq
            · obtain ⟨v, hv1, hv2⟩ := hcells c h1
              refine ⟨v, hv1, ?_⟩
              rw [List.lookup_cons]
              simp [beq_eq_false_iff_ne.mpr hceq, hv2]

/-- Helper: a successful row map sanitizes every row in order. -/
theorem sanitizeJSONRows_ok (env : JSEnv) (cols : List String) :
    ∀ (rows : List JSON) (out : List Row), sanitizeJSONRows env cols rows = .ok out →
      out.length = rows.length ∧
      ∀ (i : ℕ) (row : JSON), rows[i]? = some row →
        ∃ orow, out[i]? = some orow ∧ sanitizeJSONRow env cols row = .ok orow := by
  intro rows
  induction rows with
  | nil =>
    intro out h
    injection h with h
    subst h
    exact ⟨rfl, fun i row hi => by simp at hi⟩
  | cons r rest ih =>
    intro out h
    simp only [sanitizeJSONRows] at h
    cases hr : sanitizeJSONRow env cols r with
    | error e =>
      simp only [hr] at h
      exact Except.noConfusion h
    | ok rhead =>
      simp only [hr] at h
      cases hrest : sanitizeJSONRows env cols rest with
      | error e =>
        simp only [hrest] at h
        exact Except.noConfusion h
      | ok rs =>
        simp only [hrest] at h
        injection h with h
        subst h
        obtain ⟨hlen, hidx⟩ := ih rs hrest
        refine ⟨by simp [hlen], ?_⟩
        intro i row hi
        cases i with
        | zero =>
          simp only [List.getElem?_cons_zero, Option.some.injEq] at hi
          subst hi
          exact ⟨rhead, by simp, hr⟩
        | succ n =>
          simp only [List.getElem?_cons_succ] at hi ⊢
          exact hidx n row hi

/-- Helper: with at least one sampled column, a null row throws inside
the row map, which therefore never succeeds. -/
theorem sanitizeJSONRows_null (env : JSEnv) (c0 : String) (cs : List String) :
    ∀ rows : List JSON, JSON.null ∈ rows →
      ∀ out, sanitizeJSONRows env (c0 :: cs) rows ≠ .ok out := by
  intro rows
  induction rows with
  | nil => intro h; cases h
  | cons r rest ih =>
    intro h out hout
    simp only [sanitizeJSONRows] at hout
    rcases List.mem_cons.mp h with h1 | h1
    · rw [← h1] at hout
      simp only [sanitizeJSONRow, jsGet] at hout
      exact Except.noConfusion hout
    · cases hr : sanitizeJSONRow env (c0 :: cs) r with
      | error e =>
        simp only [hr] at hout
        exact Except.noConfusion hout
      | ok rhead =>
        simp only [hr] at hout
        cases hrest : sanitizeJSONRows env (c0 :: cs) rest with
        | error e =>
          simp only [hrest] at hout
          exact Except.noConfusion hout
        | ok rs => exact ih h1 rs hrest

/-- Claim C5: file parsing is a pass through with light post processing:
the CSV rows are loaded unchanged with the columns read off the first
row; the Parquet rows are loaded with the columns read off the first row
and each nested object cell flattened to its JSON string; a JSON document
must be an array, its columns are the insertion ordered union of the keys
of the first min(n, 100) rows, and every loaded row has exactly those
columns as keys, with nested objects flattened and missing, null or
undefined cells replaced by the empty string; a null row under a
nonempty column list throws during sanitization, so an error is set and
nothing is loaded. -/
theorem parseLoad_spec (env : JSEnv) :
    (∀ (results : List Row) (firstRow : Row) (rest : List Row),
        results = firstRow :: rest →
        parseCSV results = some (firstRow.map Prod.fst, results)) ∧
    (∀ (rows : List (List (String × JSON))) (firstRow : List (String × JSON))
        (rest : List (List (String × JSON))) (cols : List String) (out : List Row),
        rows = firstRow :: rest →
        parseParquet env rows = some (cols, out) →
        cols = firstRow.map Prod.fst ∧ out.length = rows.length ∧
        ∀ (i : ℕ) (row : List (String × JSON)), rows[i]? = some row →
          ∃ orow : Row, out[i]? = some orow ∧ orow.map Prod.fst = cols ∧
            ∀ c ∈ cols, orow.lookup c = some (parquetCellSpec env (row.lookup c))) ∧
    (∀ j : JSON, (∀ rows : List JSON, j ≠ .arr rows) →
        ∃ msg, parseJSON env j = .error msg) ∧
    (parseJSON env (.arr []) = .ok none) ∧
    (∀ (rows : List JSON) (cols : List String) (out : List Row),
        parseJSON env (.arr rows) = .ok (some (cols, out)) →
        cols = sampledCols rows ∧ cols.Nodup ∧
        (∀ c, c ∈ cols ↔ ∃ row ∈ rows.take (min rows.length 100), c ∈ sampleKeys row) ∧
        out.length = rows.length ∧
        ∀ (i : ℕ) (row : JSON), rows[i]? = some row →
          ∃ orow : Row, out[i]? = some orow ∧ orow.map Prod.fst = cols ∧
            ∀ c ∈ cols, ∃ v, jsGet env row c = .ok v
              ∧ orow.lookup c = some (jsonCellSpec env v)) ∧
    (∀ (rows : List JSON) (c0 : String) (cs : List String),
        sampledCols rows = c0 :: cs → JSON.null ∈ rows →
        ∃ msg, parseJSON env (.arr rows) = .error msg) := by
  refine ⟨?_, ?_, ?_, rfl, ?_, ?_⟩
  · rintro results firstRow rest rfl
    rfl
  · rintro rows firstRow rest cols out rfl hp
    simp only [parseParquet] at hp
    obtain ⟨hcols, hout⟩ : cols = firstRow.map Prod.fst
        ∧ out = (firstRow :: rest).map (sanitizeParquetRow env (firstRow.map Prod.fst)) := by
      have := hp.symm
      injection this with h1
      injection h1 with hc ho
      exact ⟨hc, ho⟩
    subst hcols
    subst hout
    refine ⟨rfl, by simp, ?_⟩
    intro i row hi
    rw [List.getElem?_map, hi]
    refine ⟨_, rfl, ?_, ?_⟩
    · rw [sanitizeParquetRow_eq]
      exact map_fst_map_pair _ _
    · intro c hc
      rw [sanitizeParquetRow_eq]
      exact lookup_map_self _ _ c hc
  · intro j h
    cases j with
    | arr xs => exact absurd rfl (h xs)
    | null => exact ⟨_, rfl⟩
    | bool b => exact ⟨_, rfl⟩
    | num q => exact ⟨_, rfl⟩
    | str s => exact ⟨_, rfl⟩
    | obj fields => exact ⟨_, rfl⟩
  · intro rows cols out h
    by_cases hlen : rows.length = 0
    · simp [parseJSON, hlen] at h
    · simp only [parseJSON, hlen, if_false] at h
      cases hres : sanitizeJSONRows env (sampledCols rows) rows with
      | error e =>
        simp only [hres] at h
        exact Except.noConfusion h
      | ok out2 =>
        simp only [hres] at h
        obtain ⟨hcols, hout⟩ : cols = sampledCols rows ∧ out = out2 := by
          have := h.symm
          injection this with h1
          injection h1 with h2
          injection h2 with hc ho
          exact ⟨hc, ho⟩
        subst hcols
        subst hout
        obtain ⟨hlen2, hidx⟩ := sanitizeJSONRows_ok env (sampledCols rows) rows _ hres
        refine ⟨rfl, dedupKeepFirst_nodup _, ?_, hlen2, ?_⟩
        · intro c
          unfold sampledCols
          rw [dedupKeepFirst_mem, List.mem_flatten]
          constructor
          · rintro ⟨l, hl, hc⟩
            obtain ⟨row, hrow, rfl⟩ := List.mem_map.mp hl
            exact ⟨row, hrow, hc⟩
          · rintro ⟨row, hrow, hc⟩
            exact ⟨sampleKeys row, List.mem_map.mpr ⟨row, hrow, rfl⟩, hc⟩
        · intro i row hi
          obtain ⟨orow, ho1, ho2⟩ := hidx i row hi
          obtain ⟨hkeys, hcells⟩ := sanitizeJSONRow_ok_inv env row (sampledCols rows) orow ho2
          exact ⟨orow, ho1, hkeys, hcells⟩
  · intro rows c0 cs hc0 hnull
    have hne : ¬ rows.length = 0 := by
      intro h0
      rw [List.length_eq_zero] at h0
      subst h0
      cases hnull
    cases hres : sanitizeJSONRows env (sampledCols rows) rows with
    | error e =>
      refine ⟨e, ?_⟩
      simp only [parseJSON]
      rw [if_neg hne, hres]
    | ok out =>
      rw [hc0] at hres
      exact absurd hres (sanitizeJSONRows_null env c0 cs rows hnull out)

/-- Claim C5 witness: one concrete CSV row loads as is, with the columns
read off that first row; and a JSON array holding an object row and a
null row does not load, because the null row throws under the sampled
column. -/
theorem parseLoad_witness :
    parseCSV [rowA] = some (["name", "score"], [rowA]) ∧
    parseJSON defaultEnv (.arr [.obj [("a", .num 1)], .null])
      ≠ .ok (some (["a"], [[("a", JSVal.num 1)], [("a", JSVal.str "")]])) := by
  constructor
  · have h := (parseLoad_spec defaultEnv).1 [rowA] rowA [] rfl
    exact h.trans (by rfl)
  · have h := (parseLoad_spec defaultEnv).2.2.2.2.2
      [.obj [("a", .num 1)], .null] "a" [] (by rfl)
      (List.mem_cons_of_mem _ (List.mem_cons_self _ _))
    obtain ⟨msg, hmsg⟩ := h
    rw [hmsg]
    exact fun hx => Except.noConfusion hx

/-- Helper: membership in the modes list characterizes maximal
multiplicity, once some value repeats. -/
theorem mem_modesOf_iff (values : List ℚ) (hmf : 1 < maxFreqOf values) (x : ℚ) :
    x ∈ modesOf values ↔ values.count x = maxFreqOf values := by
  unfold modesOf
  rw [List.mem_filter]
  constructor
  · rintro ⟨-, hcnt⟩
    exact of_decide_eq_true hcnt
  · intro hcnt
    refine ⟨?_, decide_eq_true hcnt⟩
    rw [dedupKeepFirst_mem]
    have hpos : 0 < values.count x := by omega
    have hx : x ∈ values := List.count_pos_iff.mp hpos
    exact ((List.perm_insertionSort (· ≤ ·) values).mem_iff).mpr hx

/-- Claim C1: the hovered column statistics come from one linear scan
with type sniffing: present cells (not null, not undefined, not the empty
string) that coerce to numbers are collected as numeric, otherwise cells
with a valid Date.parse are collected as dates; the column counts as a
date column exactly when the dates outnumber the numbers; over the
selected values the mean is their sum divided by their count and the
median is the middle element of the sorted values (the average of the
two middle elements for an even count); a numeric column reports the
modes and a date column reports the oldest and newest timestamps. -/
theorem activeColumnStats_spec (env : JSEnv) (data : List Row) (col : String)
    (s : ColStats) (h : activeColumnStats env data col = some s)
    (nums dates values : List ℚ)
    (hnums : nums = data.filterMap (numExtract env col))
    (hdates : dates = data.filterMap (dateExtract env col))
    (hvalues : values = if nums.length < dates.length then dates else nums) :
    s.isDate = decide (nums.length < dates.length) ∧
    values ≠ [] ∧
    s.count = values.length ∧
    s.mean = values.sum / (values.length : ℚ) ∧
    (∀ l : List ℚ, values ~ l → l.Sorted (· ≤ ·) →
      (values.length % 2 = 1 → s.median = l.getD (values.length / 2) 0) ∧
      (values.length % 2 = 0 →
          s.median = (l.getD (values.length / 2 - 1) 0 + l.getD (values.length / 2) 0) / 2) ∧
      (s.isDate = true →
          s.minDate = some (l.getD 0 0) ∧ s.maxDate = some (l.getD (values.length - 1) 0))) ∧
    (s.isDate = false → s.minDate = none ∧ s.maxDate = none ∧
      ∃ ms, s.modes = some ms ∧
        ∀ x, (x ∈ ms ↔ 1 < maxFreqOf values ∧ values.count x = maxFreqOf values)) ∧
    (s.isDate = true → s.modes = none) := by
  subst hnums hdates hvalues
  simp only [activeColumnStats, scanColumn_eq] at h
  by_cases h0 : col = "" ∨ data.isEmpty
  · rw [if_pos h0] at h
    exact Option.noConfusion h
  · rw [if_neg h0] at h
    by_cases hl : (data.filterMap (numExtract env col)).length
        < (data.filterMap (dateExtract env col)).length
    · simp only [gt_iff_lt, hl, decide_True, if_true, eq_self_iff_true] at h
      split at h
      · exact Option.noConfusion h
      · rename_i hlen0
        injection h with h
        subst h
        rw [if_pos hl]
        have hsort := List.sorted_insertionSort (α := ℚ) (· ≤ ·)
          (data.filterMap (dateExtract env col))
        have hperm := List.perm_insertionSort (α := ℚ) (· ≤ ·)
          (data.filterMap (dateExtract env col))
        refine ⟨by simp [hl], ?_, rfl, ?_, ?_, ?_, fun _ => rfl⟩
        · intro hv
          rw [hv] at hlen0
          exact hlen0 rfl
        · show List.foldl (· + ·) 0 (data.filterMap (dateExtract env col)) / _ = _
          rw [foldl_add_eq_sum]
          simp
        · intro l hpl hsl
          have hld : sortNumeric (data.filterMap (dateExtract env col)) = l :=
            List.eq_of_perm_of_sorted (hperm.trans hpl) hsort hsl
          rw [← hld]
          refine ⟨?_, ?_, fun _ => ⟨rfl, rfl⟩⟩
          · intro hodd
            show (if _ % 2 ≠ 0 then _ else _) = _
            simp [hodd]
          · intro heven
            show (if _ % 2 ≠ 0 then _ else _) = _
            simp [heven]
        · intro habs
          exact Bool.noConfusion habs
    · simp only [gt_iff_lt, hl, decide_False, Bool.false_eq_true, if_false] at h
      split at h
      · exact Option.noConfusion h
      · rename_i hlen0
        injection h with h
        subst h
        rw [if_neg hl]
        have hsort := List.sorted_insertionSort (α := ℚ) (· ≤ ·)
          (data.filterMap (numExtract env col))
        have hperm := List.perm_insertionSort (α := ℚ) (· ≤ ·)
          (data.filterMap (numExtract env col))
        refine ⟨by simp [hl], ?_, rfl, ?_, ?_, ?_, fun habs => Bool.noConfusion habs⟩
        · intro hv
          rw [hv] at hlen0
          exact hlen0 rfl
        · show List.foldl (· + ·) 0 (data.filterMap (numExtract env col)) / _ = _
          rw [foldl_add_eq_sum]
          simp
        · intro l hpl hsl
          have hld : sortNumeric (data.filterMap (numExtract env col)) = l :=
            List.eq_of_perm_of_sorted (hperm.trans hpl) hsort hsl
          rw [← hld]
          refine ⟨?_, ?_, fun habs => Bool.noConfusion habs⟩
          · intro hodd
            show (if _ % 2 ≠ 0 then _ else _) = _
            simp [hodd]
          · intro heven
            show (if _ % 2 ≠ 0 then _ else _) = _
            simp [heven]
        · intro _
          refine ⟨rfl, rfl, ?_⟩
          by_cases hmf : 1 < maxFreqOf (data.filterMap (numExtract env col))
          · refine ⟨modesOf (data.filterMap (numExtract env col)), by simp [hmf], ?_⟩
            intro x
            rw [mem_modesOf_iff _ hmf x]
            exact ⟨fun hc => ⟨hmf, hc⟩, fun hc => hc.2⟩
          · refine ⟨[], by simp [hmf], ?_⟩
            intro x
            simp only [List.not_mem_nil, false_iff, not_and]
            intro hc
            exact absurd hc hmf

/-- Claim C1 witness: on the concrete dataset, hovering the score column
yields a numeric column of count three, mean fourteen thirds, median two
and single mode two. -/
theorem activeColumnStats_witness :
    activeColumnStats defaultEnv exData "score"
        = some ⟨false, 3, 14 / 3, 2, some [2], none, none⟩ ∧
    (false : Bool)
      = decide ((exData.filterMap (numExtract defaultEnv "score")).length
          < (exData.filterMap (dateExtract defaultEnv "score")).length) := by
  have h : activeColumnStats defaultEnv exData "score"
      = some ⟨false, 3, 14 / 3, 2, some [2], none, none⟩ := by
    have h1 : scanColumn defaultEnv exData "score" = ([10, 2, 2], []) := by decide
    have h2 : sortNumeric [(10 : ℚ), 2, 2] = [2, 2, 10] := by decide
    have h3 : maxFreqOf [(10 : ℚ), 2, 2] = 2 := by decide
    have h4 : modesOf [(10 : ℚ), 2, 2] = [2] := by decide
    simp only [activeColumnStats, h1]
    norm_num [h2, h3, h4]
    rintro (hx | hx)
    · exact absurd hx (by decide)
    · exact absurd hx (by decide)
  refine ⟨h, ?_⟩
  have h2 := activeColumnStats_spec defaultEnv exData "score" _ h
    (exData.filterMap (numExtract defaultEnv "score"))
    (exData.filterMap (dateExtract defaultEnv "score"))
    _ rfl rfl rfl
  exact h2.1

end DataFloor
